import Mathlib

/-!
Shallow embedding of the `DocumentRepositoryManager` class found in
`110 - Gemini File Search Tool/06_test_python_document_repository_manager.py`.

The manager tracks documents in a remote file-search store and keeps a local
JSON "version log" mapping each display name to an ordered list of lifecycle
entries.  Python dictionaries with string values are modelled as association
lists (insertion order preserved, exactly as CPython dictionaries behave);
the backend store is a list of documents in listing order; the backend client
calls (`upload_to_file_search_store`, `documents.delete`, `documents.list`)
are modelled by explicit functions over a `World` state, parametrised by an
environment `Env` that decides backend-side success or failure.  Each
operation also reports the list of backend calls it attempted, and a thrown
Python exception is an `Except.error` carrying the message, together with the
state the manager object was left in when the exception escaped.
-/

/-- One custom-metadata element, a Python dict `{"key": k, "string_value": v}`. -/
structure MetaEntry where
  key : String
  string_value : String
deriving DecidableEq

/-- A backend document as the store lists it.  `custom_metadata` records the
metadata attached at upload time. -/
structure Doc where
  name : String
  display_name : String
  state : String
  size_bytes : Nat
  custom_metadata : List MetaEntry
deriving DecidableEq

/-- One version-log entry: a Python dict with string keys and string values,
in insertion order (for example `action`, `timestamp`, `file_path`). -/
abbrev LogEntry := List (String × String)

/-- The version log: a Python dict from display name to list of entries,
in insertion order. -/
abbrev VersionLog := List (String × List LogEntry)

/-- A JSON value, as far as the version-log file needs: `json.dump` writes
strings, arrays and objects only (every leaf of the log is a string). -/
inductive JVal where
  | str : String → JVal
  | arr : List JVal → JVal
  | obj : List (String × JVal) → JVal

/-- The world the manager acts on: the backend store contents in listing
order, the in-memory version log, the parsed contents of the version-log
file on disk (`none` when the file does not exist), and the set of local
files that exist on this machine. -/
structure World where
  docs : List Doc
  version_log : VersionLog
  diskLog : Option JVal
  localFiles : List String

/-- A backend call attempted by an operation. -/
inductive Call where
  | upload : String → Call
  | deleteDoc : String → Call
  | listDocs : Call
deriving DecidableEq

/-- Result of running one manager operation: the state the manager was left
in, the backend calls attempted in order, and either the returned value or
the message of the exception that escaped. -/
structure Outcome (α : Type) where
  world : World
  trace : List Call
  result : Except String α

/-- Backend environment: decides whether an upload or a delete fails on the
backend side, the attributes of a freshly uploaded document, and the strings
the manager draws from the wall clock. -/
structure Env where
  uploadErr : Option String
  deleteErr : String → Option String
  freshName : String
  newState : String
  newSize : Nat
  ts : String
  genVersion : String

/-- Python dict lookup `d.get(k)` on the version log (first binding wins). -/
def lookupLog : VersionLog → String → Option (List LogEntry)
  | [], _ => none
  | p :: rest, k => if p.1 == k then some p.2 else lookupLog rest k

/-- Python `k in d` on the version log. -/
def hasKey (log : VersionLog) (k : String) : Bool :=
  (lookupLog log k).isSome

/-- Python dict assignment `d[k] = v`: update in place when the key exists,
otherwise append the new binding at the end (insertion order). -/
def setKey (log : VersionLog) (k : String) (v : List LogEntry) : VersionLog :=
  if hasKey log k then
    log.map (fun p => if p.1 == k then (p.1, v) else p)
  else log ++ [(k, v)]

/-- Python `d[k].append(e)` on the version log (the code only calls this when
the key is present). -/
def appendEntry (log : VersionLog) (k : String) (e : LogEntry) : VersionLog :=
  log.map (fun p => if p.1 == k then (p.1, p.2 ++ [e]) else p)

/-- JSON encoding of one log entry, as `json.dump` serialises the dict. -/
def encodeEntry (e : LogEntry) : JVal :=
  JVal.obj (e.map (fun p => (p.1, JVal.str p.2)))

/-- JSON encoding of the whole version log. -/
def encodeLog (log : VersionLog) : JVal :=
  JVal.obj (log.map (fun p => (p.1, JVal.arr (p.2.map encodeEntry))))

/-- Decode the fields of one entry object: every value must be a string. -/
def decodeEntryFields : List (String × JVal) → Option LogEntry
  | [] => some []
  | (k, JVal.str s) :: rest =>
    match decodeEntryFields rest with
    | some l => some ((k, s) :: l)
    | none => none
  | _ => none

/-- Decode one log entry from JSON. -/
def decodeEntry : JVal → Option LogEntry
  | JVal.obj fields => decodeEntryFields fields
  | _ => none

/-- Decode a JSON array of entries. -/
def decodeEntryList : List JVal → Option (List LogEntry)
  | [] => some []
  | v :: rest =>
    match decodeEntry v, decodeEntryList rest with
    | some e, some l => some (e :: l)
    | _, _ => none

/-- Decode the fields of the top-level log object. -/
def decodeLogFields : List (String × JVal) → Option VersionLog
  | [] => some []
  | (k, JVal.arr vs) :: rest =>
    match decodeEntryList vs, decodeLogFields rest with
    | some es, some l => some ((k, es) :: l)
    | _, _ => none
  | _ => none

/-- Decode a whole version log from JSON, as `json.load` reads it back. -/
def decodeLog : JVal → Option VersionLog
  | JVal.obj fields => decodeLogFields fields
  | _ => none

/-- Python `os.path.basename`: the component after the last slash. -/
def basename (p : String) : String :=
  ((p.splitOn "/").getLast?).getD p

/-- Linear scan of the backend listing for the first document whose display
name matches. -/
def findDoc : List Doc → String → Option Doc
  | [], _ => none
  | d :: rest, n => if d.display_name == n then some d else findDoc rest n

/-- Remove the first element satisfying the predicate (the backend deletes
the document addressed by its unique resource name). -/
def eraseFirst (p : Doc → Bool) : List Doc → List Doc
  | [] => []
  | d :: rest => if p d then rest else d :: eraseFirst p rest

/-- Whether some document in the list has the given backend resource name. -/
def nameMem (s : String) : List Doc → Bool
  | [] => false
  | d :: rest => s == d.name || nameMem s rest

/-- Backend invariant: resource names in the listing are pairwise distinct. -/
def namesUnique : List Doc → Bool
  | [] => true
  | d :: rest => !nameMem d.name rest && namesUnique rest

/-- Model of `client.file_search_stores.upload_to_file_search_store` (with
the completed `_wait_for_operation` folded in): the SDK first opens the local
file, raising when it does not exist; otherwise the environment decides
backend failure; on success the store gains one document carrying the
configured display name and metadata. -/
def clientUpload (env : Env) (w : World) (file_path : String)
    (display_name : String) (meta : List MetaEntry) : Except String World :=
  if w.localFiles.contains file_path then
    match env.uploadErr with
    | some e => Except.error e
    | none => Except.ok { w with
        docs := w.docs ++ [⟨env.freshName, display_name, env.newState, env.newSize, meta⟩] }
  else
    Except.error ("FileNotFoundError: " ++ file_path)

/-- Model of `client.file_search_stores.documents.delete`: the environment
decides failure; on success the document with that resource name is removed
from the listing. -/
def clientDelete (env : Env) (w : World) (name : String) : Except String World :=
  match env.deleteErr name with
  | some e => Except.error e
  | none => Except.ok { w with docs := eraseFirst (fun d => d.name == name) w.docs }

/-- Python truthiness of `display_name or os.path.basename(file_path)`:
`None` and the empty string both fall back to the basename. -/
def effName (file_path : String) (display_name : Option String) : String :=
  match display_name with
  | some s => if s == "" then basename file_path else s
  | none => basename file_path

/-- Python truthiness of the optional metadata list (`if metadata:`). -/
def effMeta (metadata : Option (List MetaEntry)) : List MetaEntry :=
  match metadata with
  | some l => l
  | none => []

/-- Python truthiness of `version or datetime.now().strftime(...)`. -/
def effVersion (env : Env) (version : Option String) : String :=
  match version with
  | some v => if v == "" then env.genVersion else v
  | none => env.genVersion

namespace DocumentRepositoryManager

/-- `_find_document`: first backend document whose display name matches. -/
def _find_document (w : World) (display_name : String) : Option Doc :=
  findDoc w.docs display_name

/-- `_wait_for_operation`: re-poll until the operation reports done.  `polls i`
is the `done` flag of the i-th snapshot of the operation (snapshot 0 is the
handle the upload returned).  The source loop has no fuel; the fuel argument
makes the loop a total function, and termination of the source loop is the
existence of a fuel for which the result is `some`.  The returned number is
the index of the snapshot that reported done. -/
def _wait_for_operation (polls : Nat → Bool) : Nat → Nat → Option Nat
  | 0, _ => none
  | fuel + 1, i => if polls i then some i else _wait_for_operation polls fuel (i + 1)

/-- `_save_version_log`: rewrite the log file with the JSON encoding of the
in-memory log. -/
def _save_version_log (w : World) : World :=
  { w with diskLog := some (encodeLog w.version_log) }

/-- `_load_version_log`: an absent file yields the empty log; an existing
file is parsed as JSON (`none` models a `json.load` failure). -/
def _load_version_log (file : Option JVal) : Option VersionLog :=
  match file with
  | none => some []
  | some j => decodeLog j

/-- The dict `add` returns: `{display_name, status}`. -/
structure AddResult where
  display_name : String
  status : String
deriving DecidableEq

/-- `add`: upload the file, then OVERWRITE the version-log binding of the
display name with a fresh single-element history and persist the log. -/
def add (env : Env) (w : World) (file_path : String)
    (display_name : Option String) (metadata : Option (List MetaEntry)) :
    Outcome AddResult :=
  let dn := effName file_path display_name
  match clientUpload env w file_path dn (effMeta metadata) with
  | Except.error e => ⟨w, [Call.upload file_path], Except.error e⟩
  | Except.ok w1 =>
    let entry : LogEntry :=
      [("action", "added"), ("timestamp", env.ts), ("file_path", file_path)]
    let w2 := { w1 with version_log := setKey w1.version_log dn [entry] }
    ⟨_save_version_log w2, [Call.upload file_path], Except.ok ⟨dn, "added"⟩⟩

/-- One element of the list passed to `add_batch`. -/
structure BatchFile where
  path : String
  name : Option String
  metadata : Option (List MetaEntry)

/-- One per-file outcome of `add_batch`. -/
inductive BatchOutcome where
  | ok : String → String → BatchOutcome
  | failed : String → String → String → BatchOutcome
deriving DecidableEq

/-- `add_batch`: call `add` sequentially; a per-file exception becomes a
`failed` outcome with the error message and the batch continues. -/
def add_batch (env : Env) (w : World) : List BatchFile → World × List BatchOutcome
  | [] => (w, [])
  | f :: rest =>
    let o := add env w f.path f.name f.metadata
    match o.result with
    | Except.ok r =>
      let next := add_batch env o.world rest
      (next.1, BatchOutcome.ok r.display_name r.status :: next.2)
    | Except.error e =>
      let next := add_batch env o.world rest
      (next.1, BatchOutcome.failed f.path "failed" e :: next.2)

/-- `remove`: find the first matching document; absent means `false` and no
change; present means delete it, then append a "removed" entry and persist
only when the display name already has log history, and return `true`. -/
def remove (env : Env) (w : World) (display_name : String) : Outcome Bool :=
  match _find_document w display_name with
  | none => ⟨w, [Call.listDocs], Except.ok false⟩
  | some doc =>
    match clientDelete env w doc.name with
    | Except.error e => ⟨w, [Call.listDocs, Call.deleteDoc doc.name], Except.error e⟩
    | Except.ok w1 =>
      if hasKey w1.version_log display_name then
        let entry : LogEntry := [("action", "removed"), ("timestamp", env.ts)]
        let w2 := { w1 with version_log := appendEntry w1.version_log display_name entry }
        ⟨_save_version_log w2, [Call.listDocs, Call.deleteDoc doc.name], Except.ok true⟩
      else
        ⟨w1, [Call.listDocs, Call.deleteDoc doc.name], Except.ok true⟩

/-- Loop body of `clear_all`: iterate over the snapshot of the listing,
deleting each document and counting. -/
def clearLoop (env : Env) : List Doc → World → Nat → Outcome Nat
  | [], w, count => ⟨w, [], Except.ok count⟩
  | d :: rest, w, count =>
    match clientDelete env w d.name with
    | Except.error e => ⟨w, [Call.deleteDoc d.name], Except.error e⟩
    | Except.ok w1 =>
      let o := clearLoop env rest w1 (count + 1)
      ⟨o.world, Call.deleteDoc d.name :: o.trace, o.result⟩

/-- `clear_all`: list every document in the backend and delete each one,
never touching the version log. -/
def clear_all (env : Env) (w : World) : Outcome Nat :=
  let o := clearLoop env w.docs w 0
  ⟨o.world, Call.listDocs :: o.trace, o.result⟩

/-- The dict `replace` returns: `{display_name, version}`. -/
structure ReplaceResult where
  display_name : String
  version : String
deriving DecidableEq

/-- `replace`: delete the first existing document with this display name (a
delete failure propagates before any upload), upload the new file with the
version metadata entry first, then append a log entry whose action is
"replaced" exactly when the pre-check found an existing document. -/
def replace (env : Env) (w : World) (display_name : String) (new_file_path : String)
    (version : Option String) (metadata : Option (List MetaEntry)) :
    Outcome ReplaceResult :=
  let ver := effVersion env version
  let existing := _find_document w display_name
  let afterDelete : Except String World :=
    match existing with
    | some doc => clientDelete env w doc.name
    | none => Except.ok w
  let delTrace : List Call :=
    match existing with
    | some doc => [Call.deleteDoc doc.name]
    | none => []
  match afterDelete with
  | Except.error e => ⟨w, Call.listDocs :: delTrace, Except.error e⟩
  | Except.ok w1 =>
    let version_metadata : List MetaEntry :=
      ⟨"version", ver⟩ :: effMeta metadata
    match clientUpload env w1 new_file_path display_name version_metadata with
    | Except.error e =>
      ⟨w1, Call.listDocs :: (delTrace ++ [Call.upload new_file_path]), Except.error e⟩
    | Except.ok w2 =>
      let baseLog := if hasKey w2.version_log display_name then w2.version_log
                     else setKey w2.version_log display_name []
      let entry : LogEntry :=
        [("action", if existing.isSome then "replaced" else "added"),
         ("version", ver), ("timestamp", env.ts)]
      let w3 := { w2 with version_log := appendEntry baseLog display_name entry }
      ⟨_save_version_log w3, Call.listDocs :: (delTrace ++ [Call.upload new_file_path]),
       Except.ok ⟨display_name, ver⟩⟩

/-- One element of what `list` returns. -/
structure DocInfo where
  name : String
  display_name : String
  state : String
  size_bytes : Nat
deriving DecidableEq

/-- `list`: enumerate the backend listing directly. -/
def list (w : World) : List DocInfo :=
  w.docs.map (fun d => ⟨d.name, d.display_name, d.state, d.size_bytes⟩)

/-- `get_history`: pure local read of the version log, empty when absent. -/
def get_history (w : World) (display_name : String) : List LogEntry :=
  (lookupLog w.version_log display_name).getD []

end DocumentRepositoryManager

/-! ### Round-trip of the version-log persistence -/

lemma decodeEntryFields_encode (e : LogEntry) :
    decodeEntryFields (e.map (fun p => (p.1, JVal.str p.2))) = some e := by
  induction e with
  | nil => rfl
  | cons p rest ih =>
    cases p with
    | mk k s => simp [decodeEntryFields, ih]

lemma decodeEntry_encode (e : LogEntry) : decodeEntry (encodeEntry e) = some e := by
  simp [decodeEntry, encodeEntry, decodeEntryFields_encode]

lemma decodeEntryList_encode (l : List LogEntry) :
    decodeEntryList (l.map encodeEntry) = some l := by
  induction l with
  | nil => rfl
  | cons e rest ih => simp [decodeEntryList, decodeEntry_encode, ih]

lemma decodeLogFields_encode (log : VersionLog) :
    decodeLogFields (log.map (fun p => (p.1, JVal.arr (p.2.map encodeEntry)))) = some log := by
  induction log with
  | nil => rfl
  | cons p rest ih =>
    cases p with
    | mk k es => simp [decodeLogFields, decodeEntryList_encode, ih]

/-- Claim C6: Version Log persistence round-trips losslessly — for every
version-log mapping, writing it with `_save_version_log` and reading the
written file back with `_load_version_log` reproduces an identical mapping,
with the order of display names and of entries per name preserved. -/
theorem version_log_roundtrip (w : World) :
    DocumentRepositoryManager._load_version_log
      ((DocumentRepositoryManager._save_version_log w).diskLog)
      = some w.version_log := by
  simp [DocumentRepositoryManager._load_version_log,
    DocumentRepositoryManager._save_version_log, decodeLog, encodeLog,
    decodeLogFields_encode]

/-! ### Upload-completion polling -/

lemma wait_some_done (polls : Nat → Bool) :
    ∀ fuel i m, DocumentRepositoryManager._wait_for_operation polls fuel i = some m →
      polls m = true := by
  intro fuel
  induction fuel with
  | zero =>
    intro i m h
    exact absurd h (by simp [DocumentRepositoryManager._wait_for_operation])
  | succ k ih =>
    intro i m h
    simp only [DocumentRepositoryManager._wait_for_operation] at h
    cases hp : polls i with
    | true =>
      simp [hp] at h
      subst h
      exact hp
    | false =>
      simp [hp] at h
      exact ih (i + 1) m h

lemma wait_reaches (polls : Nat → Bool) :
    ∀ k i, polls (i + k) = true →
      (DocumentRepositoryManager._wait_for_operation polls (k + 1) i).isSome = true := by
  intro k
  induction k with
  | zero =>
    intro i h
    simp only [Nat.add_zero] at h
    simp [DocumentRepositoryManager._wait_for_operation, h]
  | succ k ih =>
    intro i h
    simp only [DocumentRepositoryManager._wait_for_operation]
    cases hp : polls i with
    | true => simp [hp]
    | false =>
      simp [hp]
      have harg : (i + 1) + k = i + (k + 1) := by omega
      exact ih (i + 1) (by rw [harg]; exact h)

/-- Claim C9: `_wait_for_operation` blocks until done with no timeout — the loop
terminates (some fuel makes the fuelled version return a value) if and only
if some poll in the sequence reports done, and a returned value always points
at a snapshot whose done flag is set.  A backend whose operation never
reports done makes every fuelled run return `none`, i.e. the source loop
never returns. -/
theorem wait_for_operation_termination (polls : Nat → Bool) :
    ((∃ fuel, (DocumentRepositoryManager._wait_for_operation polls fuel 0).isSome = true)
      ↔ (∃ i, polls i = true))
  ∧ (∀ fuel i m, DocumentRepositoryManager._wait_for_operation polls fuel i = some m →
      polls m = true) := by
  constructor
  · constructor
    · rintro ⟨fuel, hf⟩
      obtain ⟨m, hm⟩ := Option.isSome_iff_exists.mp hf
      exact ⟨m, wait_some_done polls fuel 0 m hm⟩
    · rintro ⟨i, hi⟩
      exact ⟨i + 1, wait_reaches polls i 0 (by simpa using hi)⟩
  · exact wait_some_done polls

/-- A concrete poll sequence whose snapshot 1 reports done. -/
def polls0 : Nat → Bool := fun i => i == 1

/-- Witness for C9 at the concrete poll sequence `polls0`. -/
theorem wait_for_operation_termination_witness :
    DocumentRepositoryManager._wait_for_operation polls0 5 0 = some 1
      ∧ polls0 1 = true :=
  ⟨rfl, (wait_for_operation_termination polls0).2 5 0 1 rfl⟩

/-! ### Failure atomicity of remove and replace -/

/-- Claim C10: when a matching backend document exists and the backend delete call
fails, `remove` propagates the error, the manager state (docs untouched on
the client side, version log in memory and on disk) is exactly the input
state, and the only backend calls attempted are the listing and the failed
delete — the log is mutated only after the delete returns. -/
theorem remove_delete_failure (env : Env) (w : World) (n : String) (doc : Doc) (e : String)
    (hfind : DocumentRepositoryManager._find_document w n = some doc)
    (hdel : env.deleteErr doc.name = some e) :
    DocumentRepositoryManager.remove env w n
      = ⟨w, [Call.listDocs, Call.deleteDoc doc.name], Except.error e⟩ := by
  simp only [DocumentRepositoryManager.remove, hfind, clientDelete, hdel]

/-- Claim C8: when a backend document with the display name exists and the backend
delete of it fails, `replace` propagates the failure, attempts no upload
(the trace holds only the listing and the failed delete), and leaves the
state — in particular the version log in memory and on disk — unchanged. -/
theorem replace_delete_failure (env : Env) (w : World) (n path : String)
    (version : Option String) (metadata : Option (List MetaEntry)) (doc : Doc) (e : String)
    (hfind : DocumentRepositoryManager._find_document w n = some doc)
    (hdel : env.deleteErr doc.name = some e) :
    DocumentRepositoryManager.replace env w n path version metadata
      = ⟨w, [Call.listDocs, Call.deleteDoc doc.name], Except.error e⟩ := by
  simp only [DocumentRepositoryManager.replace, hfind, clientDelete, hdel]

/-- A backend document used by the concrete witnesses. -/
def docA : Doc := ⟨"docs/a", "a", "ACTIVE", 3, []⟩

/-- A world holding `docA` and some log history for display name "a". -/
def wFail : World :=
  ⟨[docA], [("a", [[("action", "added"), ("timestamp", "T0"), ("file_path", "a.txt")]])],
   none, ["a.txt", "b.txt"]⟩

/-- An environment whose delete of `docs/a` fails. -/
def envDelFail : Env :=
  ⟨none, fun s => if s == "docs/a" then some "boom" else none,
   "docs/new", "ACTIVE", 0, "T1", "V1"⟩

/-- Witness for C10 at a concrete store, document and failing delete. -/
theorem remove_delete_failure_witness :
    DocumentRepositoryManager.remove envDelFail wFail "a"
      = ⟨wFail, [Call.listDocs, Call.deleteDoc "docs/a"], Except.error "boom"⟩ :=
  remove_delete_failure envDelFail wFail "a" docA "boom" rfl rfl

/-- Witness for C8 at a concrete store, document and failing delete. -/
theorem replace_delete_failure_witness :
    DocumentRepositoryManager.replace envDelFail wFail "a" "b.txt" none none
      = ⟨wFail, [Call.listDocs, Call.deleteDoc "docs/a"], Except.error "boom"⟩ :=
  replace_delete_failure envDelFail wFail "a" "b.txt" none none docA "boom" rfl rfl

/-! ### Dictionary lemmas for the version log -/

lemma lookupLog_map_update (k : String) (v : List LogEntry) :
    ∀ log : VersionLog, hasKey log k = true →
      lookupLog (log.map (fun p => if p.1 == k then (p.1, v) else p)) k = some v := by
  intro log
  induction log with
  | nil => intro h; simp [hasKey, lookupLog] at h
  | cons p rest ih =>
    intro h
    cases hp : p.1 == k with
    | true => simp [lookupLog, hp]
    | false =>
      have h2 : hasKey rest k = true := by
        simp [hasKey, lookupLog, hp] at h
        simpa [hasKey] using h
      simp only [List.map_cons, lookupLog, hp, Bool.false_eq_true, if_false]
      exact ih h2

lemma lookupLog_append_absent (k : String) (v : List LogEntry) :
    ∀ log : VersionLog, hasKey log k = false →
      lookupLog (log ++ [(k, v)]) k = some v := by
  intro log
  induction log with
  | nil => intro h; simp [lookupLog]
  | cons p rest ih =>
    intro h
    cases hp : p.1 == k with
    | true => simp [hasKey, lookupLog, hp] at h
    | false =>
      have h2 : hasKey rest k = false := by
        simp [hasKey, lookupLog, hp] at h
        simpa [hasKey] using h
      simp [lookupLog, hp, ih h2]

lemma lookupLog_setKey_self (log : VersionLog) (k : String) (v : List LogEntry) :
    lookupLog (setKey log k v) k = some v := by
  by_cases h : hasKey log k = true
  · simp only [setKey, h, if_true]
    exact lookupLog_map_update k v log h
  · have h2 : hasKey log k = false := by simpa using h
    simp only [setKey, h2, Bool.false_eq_true, if_false]
    exact lookupLog_append_absent k v log h2

lemma lookupLog_appendEntry_self (log : VersionLog) (k : String) (e : LogEntry) :
    lookupLog (appendEntry log k e) k
      = (lookupLog log k).map (fun l => l ++ [e]) := by
  induction log with
  | nil => rfl
  | cons p rest ih =>
    cases hp : p.1 == k with
    | true => simp [appendEntry, lookupLog, hp]
    | false =>
      simp only [appendEntry, List.map, lookupLog, hp, Bool.false_eq_true, if_false]
      simpa [appendEntry] using ih

/-! ### Linear-scan lemmas for the backend listing -/

lemma findDoc_nameMem : ∀ (l : List Doc) (n : String) (doc : Doc),
    findDoc l n = some doc → nameMem doc.name l = true := by
  intro l
  induction l with
  | nil => intro n doc h; simp [findDoc] at h
  | cons d rest ih =>
    intro n doc h
    cases hd : d.display_name == n with
    | true =>
      simp [findDoc, hd] at h
      subst h
      simp [nameMem]
    | false =>
      simp [findDoc, hd] at h
      simp [nameMem, ih n doc h]

lemma findDoc_erase : ∀ (l : List Doc) (n : String) (doc : Doc),
    findDoc l n = some doc → namesUnique l = true →
    eraseFirst (fun d => d.name == doc.name) l
      = eraseFirst (fun d => d.display_name == n) l := by
  intro l
  induction l with
  | nil => intro n doc h hu; rfl
  | cons d rest ih =>
    intro n doc h hu
    simp only [namesUnique, Bool.and_eq_true, Bool.not_eq_true'] at hu
    cases hd : d.display_name == n with
    | true =>
      simp [findDoc, hd] at h
      subst h
      simp [eraseFirst, hd]
    | false =>
      simp [findDoc, hd] at h
      have hnm := findDoc_nameMem rest n doc h
      have hne : (d.name == doc.name) = false := by
        cases hq : d.name == doc.name with
        | false => rfl
        | true =>
          have heq : d.name = doc.name := beq_iff_eq.mp hq
          rw [heq] at hu
          rw [hu.1] at hnm
          exact absurd hnm (by simp)
      simp [eraseFirst, hd, hne, ih n doc h hu.2]

/-- Environment where every backend call succeeds. -/
def envOk : Env := ⟨none, fun _ => none, "docs/new", "ACTIVE", 7, "T1", "V1"⟩

/-- A world with no documents, no log, no log file and no local files. -/
def wEmpty : World := ⟨[], [], none, []⟩

/-- Claim C2: `remove` returns false and changes nothing (no backend delete, log
unchanged in memory and on disk) when no backend document matches; when a
match exists and the backend delete succeeds, it deletes exactly the first
match in listing order, returns true, and appends a "removed" entry and
persists the log exactly when the display name already has log history. -/
theorem remove_spec (env : Env) (w : World) (n : String) :
    (DocumentRepositoryManager._find_document w n = none →
      DocumentRepositoryManager.remove env w n = ⟨w, [Call.listDocs], Except.ok false⟩)
  ∧ (∀ doc, DocumentRepositoryManager._find_document w n = some doc →
      env.deleteErr doc.name = none →
      (DocumentRepositoryManager.remove env w n).result = Except.ok true
      ∧ (DocumentRepositoryManager.remove env w n).trace
          = [Call.listDocs, Call.deleteDoc doc.name]
      ∧ (namesUnique w.docs = true →
          (DocumentRepositoryManager.remove env w n).world.docs
            = eraseFirst (fun d => d.display_name == n) w.docs)
      ∧ (DocumentRepositoryManager.remove env w n).world.localFiles = w.localFiles
      ∧ (hasKey w.version_log n = true →
          (DocumentRepositoryManager.remove env w n).world.version_log
            = appendEntry w.version_log n [("action", "removed"), ("timestamp", env.ts)]
          ∧ (DocumentRepositoryManager.remove env w n).world.diskLog
            = some (encodeLog (appendEntry w.version_log n
                [("action", "removed"), ("timestamp", env.ts)])))
      ∧ (hasKey w.version_log n = false →
          (DocumentRepositoryManager.remove env w n).world.version_log = w.version_log
          ∧ (DocumentRepositoryManager.remove env w n).world.diskLog = w.diskLog)) := by
  constructor
  · intro hfind
    simp only [DocumentRepositoryManager.remove, hfind]
  · intro doc hfind hdel
    by_cases hk : hasKey w.version_log n = true
    · have hred : DocumentRepositoryManager.remove env w n
          = ⟨⟨eraseFirst (fun d => d.name == doc.name) w.docs,
              appendEntry w.version_log n [("action", "removed"), ("timestamp", env.ts)],
              some (encodeLog (appendEntry w.version_log n
                [("action", "removed"), ("timestamp", env.ts)])),
              w.localFiles⟩,
             [Call.listDocs, Call.deleteDoc doc.name], Except.ok true⟩ := by
        simp only [DocumentRepositoryManager.remove, hfind, clientDelete, hdel,
          DocumentRepositoryManager._save_version_log]
        simp [hk]
      refine ⟨by rw [hred], by rw [hred], ?_, by rw [hred], ?_, ?_⟩
      · intro hu
        rw [hred]
        exact findDoc_erase w.docs n doc hfind hu
      · intro _
        rw [hred]
        exact ⟨rfl, rfl⟩
      · intro hk2
        rw [hk2] at hk
        exact absurd hk (by simp)
    · have hk2 : hasKey w.version_log n = false := by simpa using hk
      have hred : DocumentRepositoryManager.remove env w n
          = ⟨⟨eraseFirst (fun d => d.name == doc.name) w.docs,
              w.version_log, w.diskLog, w.localFiles⟩,
             [Call.listDocs, Call.deleteDoc doc.name], Except.ok true⟩ := by
        simp only [DocumentRepositoryManager.remove, hfind, clientDelete, hdel]
        simp [hk2]
      refine ⟨by rw [hred], by rw [hred], ?_, by rw [hred], ?_, ?_⟩
      · intro hu
        rw [hred]
        exact findDoc_erase w.docs n doc hfind hu
      · intro hkt
        rw [hkt] at hk2
        exact absurd hk2 (by simp)
      · intro _
        rw [hred]
        exact ⟨rfl, rfl⟩

/-- Witness for C2: concrete removal of an existing document with history,
and a removal of an absent name that changes nothing. -/
theorem remove_spec_witness :
    DocumentRepositoryManager.remove envOk wFail "zzz"
      = ⟨wFail, [Call.listDocs], Except.ok false⟩
  ∧ (DocumentRepositoryManager.remove envOk wFail "a").result = Except.ok true
  ∧ (DocumentRepositoryManager.remove envOk wFail "a").world.docs
      = eraseFirst (fun d => d.display_name == "a") wFail.docs
  ∧ (DocumentRepositoryManager.remove envOk wFail "a").world.version_log
      = appendEntry wFail.version_log "a" [("action", "removed"), ("timestamp", "T1")] := by
  have h1 := (remove_spec envOk wFail "zzz").1 rfl
  have h2 := (remove_spec envOk wFail "a").2 docA rfl rfl
  exact ⟨h1, h2.1, h2.2.2.1 rfl, (h2.2.2.2.2.1 rfl).1⟩

/-! ### clear_all -/

lemma clearLoop_ok (env : Env) (hdel : ∀ s, env.deleteErr s = none) :
    ∀ (l : List Doc) (w : World), w.docs = l → ∀ count,
      DocumentRepositoryManager.clearLoop env l w count
        = ⟨⟨[], w.version_log, w.diskLog, w.localFiles⟩,
           l.map (fun d => Call.deleteDoc d.name),
           Except.ok (count + l.length)⟩ := by
  intro l
  induction l with
  | nil =>
    intro w hw count
    obtain ⟨ds, vl, dl, lf⟩ := w
    simp only at hw
    subst hw
    simp [DocumentRepositoryManager.clearLoop]
  | cons d rest ih =>
    intro w hw count
    obtain ⟨ds, vl, dl, lf⟩ := w
    simp only at hw
    subst hw
    simp only [DocumentRepositoryManager.clearLoop, clientDelete, hdel d.name]
    have herase : eraseFirst (fun x => x.name == d.name) (d :: rest) = rest := by
      simp [eraseFirst]
    simp only [herase]
    rw [ih ⟨rest, vl, dl, lf⟩ rfl (count + 1)]
    have harith : count + 1 + rest.length = count + (rest.length + 1) := by omega
    simp [harith]

/-- Claim C4: for every store and any version-log state, when the backend delete
calls succeed `clear_all` deletes every document, returns exactly the number
of documents the store held, leaves the version log untouched in memory and
on disk, and a subsequent `list` returns the empty sequence. -/
theorem clear_all_spec (env : Env) (w : World) (hdel : ∀ s, env.deleteErr s = none) :
    (DocumentRepositoryManager.clear_all env w).result = Except.ok w.docs.length
  ∧ (DocumentRepositoryManager.clear_all env w).world.version_log = w.version_log
  ∧ (DocumentRepositoryManager.clear_all env w).world.diskLog = w.diskLog
  ∧ (DocumentRepositoryManager.clear_all env w).world.docs = []
  ∧ DocumentRepositoryManager.list (DocumentRepositoryManager.clear_all env w).world = [] := by
  have h := clearLoop_ok env hdel w.docs w rfl 0
  simp [DocumentRepositoryManager.clear_all, h, DocumentRepositoryManager.list]

/-- Witness for C4: clearing the one-document store `wFail` returns 1,
leaves the log alone and empties the listing. -/
theorem clear_all_spec_witness :
    (DocumentRepositoryManager.clear_all envOk wFail).result = Except.ok 1
  ∧ (DocumentRepositoryManager.clear_all envOk wFail).world.version_log = wFail.version_log
  ∧ DocumentRepositoryManager.list (DocumentRepositoryManager.clear_all envOk wFail).world
      = [] := by
  have h := clear_all_spec envOk wFail (fun s => rfl)
  exact ⟨h.1, h.2.1, h.2.2.2.2⟩

/-! ### add_batch -/

lemma add_error_world (env : Env) (w : World) (p : String) (dn : Option String)
    (m : Option (List MetaEntry)) (e : String)
    (h : (DocumentRepositoryManager.add env w p dn m).result = Except.error e) :
    (DocumentRepositoryManager.add env w p dn m).world = w := by
  simp only [DocumentRepositoryManager.add] at h ⊢
  cases hcu : clientUpload env w p (effName p dn) (effMeta m) with
  | error e2 => simp [hcu]
  | ok w1 =>
    rw [hcu] at h
    exact absurd h (by simp)

lemma add_batch_length (env : Env) : ∀ (files : List DocumentRepositoryManager.BatchFile)
    (w : World),
    ((DocumentRepositoryManager.add_batch env w files).2).length = files.length := by
  intro files
  induction files with
  | nil => intro w; rfl
  | cons f rest ih =>
    intro w
    simp only [DocumentRepositoryManager.add_batch]
    cases h : (DocumentRepositoryManager.add env w f.path f.name f.metadata).result with
    | ok r => simp [h, ih]
    | error e => simp [h, ih]

/-- Claim C5: `add_batch` is a total function — a per-entry failure of `add` is
recorded as a "failed" outcome carrying the error message while the batch
continues with the remaining entries from the unchanged state, and the
outcome list always has the same length (and per-index order) as the input
list. -/
theorem add_batch_total (env : Env) (w : World)
    (files : List DocumentRepositoryManager.BatchFile) :
    ((DocumentRepositoryManager.add_batch env w files).2).length = files.length
  ∧ (∀ f rest e,
      (DocumentRepositoryManager.add env w f.path f.name f.metadata).result
        = Except.error e →
      (DocumentRepositoryManager.add_batch env w (f :: rest)).2
        = DocumentRepositoryManager.BatchOutcome.failed f.path "failed" e
            :: (DocumentRepositoryManager.add_batch env w rest).2) := by
  constructor
  · exact add_batch_length env files w
  · intro f rest e h
    have hw := add_error_world env w f.path f.name f.metadata e h
    simp only [DocumentRepositoryManager.add_batch, h, hw]

/-- A batch entry pointing at a file that does not exist locally. -/
def f0 : DocumentRepositoryManager.BatchFile := ⟨"missing.txt", none, none⟩

/-- Witness for C5: a singleton batch over a missing file yields one
"failed" outcome with the error message, and the batch itself returns. -/
theorem add_batch_total_witness :
    ((DocumentRepositoryManager.add_batch envOk wEmpty [f0]).2).length = 1
  ∧ (DocumentRepositoryManager.add_batch envOk wEmpty [f0]).2
      = [DocumentRepositoryManager.BatchOutcome.failed "missing.txt" "failed"
          "FileNotFoundError: missing.txt"] := by
  have h := add_batch_total envOk wEmpty [f0]
  refine ⟨h.1, ?_⟩
  have h2 := h.2 f0 [] "FileNotFoundError: missing.txt" rfl
  simpa using h2

/-! ### replace -/

lemma lookup_base_append (log : VersionLog) (n : String) (e : LogEntry) :
    lookupLog (appendEntry (if hasKey log n then log else setKey log n []) n e) n
      = some ((lookupLog log n).getD [] ++ [e]) := by
  by_cases hk : hasKey log n = true
  · simp only [hk, if_true]
    rw [lookupLog_appendEntry_self]
    have hk2 := hk
    simp only [hasKey] at hk2
    obtain ⟨v, hv⟩ := Option.isSome_iff_exists.mp hk2
    simp [hv]
  · have hk2 : hasKey log n = false := by simpa using hk
    simp only [hk2, Bool.false_eq_true, if_false]
    rw [lookupLog_appendEntry_self, lookupLog_setKey_self]
    have hnone : lookupLog log n = none := by
      cases ho : lookupLog log n with
      | none => rfl
      | some v =>
        simp only [hasKey, ho, Option.isSome_some] at hk2
        exact absurd hk2 (by simp)
    simp [hnone]

/-- Claim C3: on a successful `replace`, the uploaded document's metadata list is
the version entry followed by the caller-supplied metadata in order, and the
appended log entry's action is "replaced" exactly when the pre-upload search
found an existing backend document with that display name — regardless of
whether the name has log history. -/
theorem replace_metadata_and_action (env : Env) (w : World) (n path : String)
    (version : Option String) (metadata : Option (List MetaEntry))
    (hup : env.uploadErr = none)
    (hfile : w.localFiles.contains path = true)
    (hdel : ∀ doc, DocumentRepositoryManager._find_document w n = some doc →
        env.deleteErr doc.name = none) :
    (DocumentRepositoryManager.replace env w n path version metadata).result
      = Except.ok ⟨n, effVersion env version⟩
  ∧ (∃ front,
      (DocumentRepositoryManager.replace env w n path version metadata).world.docs
        = front ++ [⟨env.freshName, n, env.newState, env.newSize,
            ⟨"version", effVersion env version⟩ :: effMeta metadata⟩])
  ∧ lookupLog
      (DocumentRepositoryManager.replace env w n path version metadata).world.version_log n
      = some ((lookupLog w.version_log n).getD [] ++
          [[("action",
              if (DocumentRepositoryManager._find_document w n).isSome
              then "replaced" else "added"),
            ("version", effVersion env version), ("timestamp", env.ts)]]) := by
  cases hex : DocumentRepositoryManager._find_document w n with
  | none =>
    have hred : DocumentRepositoryManager.replace env w n path version metadata
        = ⟨DocumentRepositoryManager._save_version_log
             ⟨w.docs ++ [⟨env.freshName, n, env.newState, env.newSize,
                 ⟨"version", effVersion env version⟩ :: effMeta metadata⟩],
               appendEntry (if hasKey w.version_log n then w.version_log
                 else setKey w.version_log n [])
                 n [("action", "added"), ("version", effVersion env version),
                    ("timestamp", env.ts)],
               w.diskLog, w.localFiles⟩,
           [Call.listDocs, Call.upload path],
           Except.ok ⟨n, effVersion env version⟩⟩ := by
      simp only [DocumentRepositoryManager.replace, hex, clientUpload, hfile, hup,
        Option.isSome_none, Bool.false_eq_true, if_false, if_true, List.nil_append]
    refine ⟨?_, ⟨w.docs, ?_⟩, ?_⟩
    · rw [hred]
    · rw [hred]
      simp [DocumentRepositoryManager._save_version_log]
    · rw [hred]
      simp only [DocumentRepositoryManager._save_version_log, Option.isSome_none,
        Bool.false_eq_true, if_false]
      exact lookup_base_append w.version_log n
        [("action", "added"), ("version", effVersion env version), ("timestamp", env.ts)]
  | some doc =>
    have hd := hdel doc hex
    have hred : DocumentRepositoryManager.replace env w n path version metadata
        = ⟨DocumentRepositoryManager._save_version_log
             ⟨eraseFirst (fun d => d.name == doc.name) w.docs
                 ++ [⟨env.freshName, n, env.newState, env.newSize,
                 ⟨"version", effVersion env version⟩ :: effMeta metadata⟩],
               appendEntry (if hasKey w.version_log n then w.version_log
                 else setKey w.version_log n [])
                 n [("action", "replaced"), ("version", effVersion env version),
                    ("timestamp", env.ts)],
               w.diskLog, w.localFiles⟩,
           [Call.listDocs, Call.deleteDoc doc.name, Call.upload path],
           Except.ok ⟨n, effVersion env version⟩⟩ := by
      simp only [DocumentRepositoryManager.replace, hex, clientDelete, hd, clientUpload,
        hfile, hup, Option.isSome_some, if_true, List.cons_append, List.nil_append]
    refine ⟨?_, ⟨eraseFirst (fun d => d.name == doc.name) w.docs, ?_⟩, ?_⟩
    · rw [hred]
    · rw [hred]
      simp [DocumentRepositoryManager._save_version_log]
    · rw [hred]
      simp only [DocumentRepositoryManager._save_version_log, Option.isSome_some, if_true]
      exact lookup_base_append w.version_log n
        [("action", "replaced"), ("version", effVersion env version), ("timestamp", env.ts)]

/-- Witness for C3: replacing the existing document "a" in `wFail` with
version "2.0" and one caller metadata entry yields the version entry first
and appends a "replaced" entry after the existing history. -/
theorem replace_metadata_and_action_witness :
    (DocumentRepositoryManager.replace envOk wFail "a" "b.txt"
        (some "2.0") (some [⟨"category", "x"⟩])).result
      = Except.ok ⟨"a", "2.0"⟩
  ∧ lookupLog (DocumentRepositoryManager.replace envOk wFail "a" "b.txt"
        (some "2.0") (some [⟨"category", "x"⟩])).world.version_log "a"
      = some ([[("action", "added"), ("timestamp", "T0"), ("file_path", "a.txt")],
               [("action", "replaced"), ("version", "2.0"), ("timestamp", "T1")]]) := by
  have h := replace_metadata_and_action envOk wFail "a" "b.txt"
    (some "2.0") (some [⟨"category", "x"⟩]) rfl rfl (fun doc hd => rfl)
  exact ⟨h.1, h.2.2⟩

/-! ### How each mutating operation reshapes the version log -/

/-- Counterexample for C1: the Version Log is NOT append-only under `add`.
In `wFail` the display name "a" has one history entry; after a successful
`add` under the same name, the history for "a" is exactly the fresh single
"added" entry — no extension of the old history exists, because `add`
assigns a brand-new singleton list instead of appending. -/
theorem add_overwrite_counterexample :
    lookupLog wFail.version_log "a"
      = some [[("action", "added"), ("timestamp", "T0"), ("file_path", "a.txt")]]
  ∧ lookupLog
      (DocumentRepositoryManager.add envOk wFail "b.txt" (some "a") none).world.version_log "a"
      = some [[("action", "added"), ("timestamp", "T1"), ("file_path", "b.txt")]]
  ∧ ¬ (∃ suffix,
      lookupLog
        (DocumentRepositoryManager.add envOk wFail "b.txt" (some "a") none).world.version_log "a"
        = some ([[("action", "added"), ("timestamp", "T0"), ("file_path", "a.txt")]]
            ++ suffix)) := by
  have hv : lookupLog
      (DocumentRepositoryManager.add envOk wFail "b.txt" (some "a") none).world.version_log "a"
      = some [[("action", "added"), ("timestamp", "T1"), ("file_path", "b.txt")]] := rfl
  refine ⟨rfl, hv, ?_⟩
  rintro ⟨suffix, hs⟩
  rw [hv] at hs
  have hs2 : ([[("action", "added"), ("timestamp", "T1"), ("file_path", "b.txt")]]
        : List LogEntry)
      = [("action", "added"), ("timestamp", "T0"), ("file_path", "a.txt")] :: suffix :=
    Option.some.inj hs
  injection hs2 with h1 h2
  exact absurd h1 (by decide)

/-- Claim C1, amended: `remove` and `replace` preserve all existing Version Log
entries of a display name and append exactly one new entry after them; a
successful `add`, however, overwrites the history of its display name with
the fresh single-element list containing only the new "added" entry. -/
theorem mutation_log_shapes (env : Env) (w : World) (n path : String)
    (version : Option String) (metadata : Option (List MetaEntry))
    (hist : List LogEntry)
    (hhist : lookupLog w.version_log n = some hist) :
    (∀ doc, DocumentRepositoryManager._find_document w n = some doc →
      env.deleteErr doc.name = none →
      lookupLog (DocumentRepositoryManager.remove env w n).world.version_log n
        = some (hist ++ [[("action", "removed"), ("timestamp", env.ts)]]))
  ∧ (env.uploadErr = none → w.localFiles.contains path = true →
      (∀ doc, DocumentRepositoryManager._find_document w n = some doc →
        env.deleteErr doc.name = none) →
      lookupLog
        (DocumentRepositoryManager.replace env w n path version metadata).world.version_log n
        = some (hist ++
            [[("action", if (DocumentRepositoryManager._find_document w n).isSome
                          then "replaced" else "added"),
              ("version", effVersion env version), ("timestamp", env.ts)]]))
  ∧ ((n == "") = false → env.uploadErr = none → w.localFiles.contains path = true →
      lookupLog
        (DocumentRepositoryManager.add env w path (some n) metadata).world.version_log n
        = some [[("action", "added"), ("timestamp", env.ts), ("file_path", path)]]) := by
  have hk : hasKey w.version_log n = true := by simp [hasKey, hhist]
  refine ⟨?_, ?_, ?_⟩
  · intro doc hfind hdel2
    have hred : (DocumentRepositoryManager.remove env w n).world.version_log
        = appendEntry w.version_log n [("action", "removed"), ("timestamp", env.ts)] := by
      simp only [DocumentRepositoryManager.remove, hfind, clientDelete, hdel2,
        DocumentRepositoryManager._save_version_log]
      simp [hk]
    rw [hred, lookupLog_appendEntry_self, hhist]
    rfl
  · intro hup hfile hdel2
    cases hex : DocumentRepositoryManager._find_document w n with
    | none =>
      have hred : (DocumentRepositoryManager.replace env w n path version
            metadata).world.version_log
          = appendEntry (if hasKey w.version_log n then w.version_log
              else setKey w.version_log n []) n
              [("action", "added"), ("version", effVersion env version),
               ("timestamp", env.ts)] := by
        simp only [DocumentRepositoryManager.replace, hex, clientUpload, hfile, hup,
          Option.isSome_none, Bool.false_eq_true, if_false, if_true,
          DocumentRepositoryManager._save_version_log]
      rw [hred, lookup_base_append, hhist]
      rfl
    | some doc =>
      have hd := hdel2 doc hex
      have hred : (DocumentRepositoryManager.replace env w n path version
            metadata).world.version_log
          = appendEntry (if hasKey w.version_log n then w.version_log
              else setKey w.version_log n []) n
              [("action", "replaced"), ("version", effVersion env version),
               ("timestamp", env.ts)] := by
        simp only [DocumentRepositoryManager.replace, hex, clientDelete, hd, clientUpload,
          hfile, hup, Option.isSome_some, if_true,
          DocumentRepositoryManager._save_version_log]
      rw [hred, lookup_base_append, hhist]
      rfl
  · intro hn hup hfile
    have hred : (DocumentRepositoryManager.add env w path (some n)
          metadata).world.version_log
        = setKey w.version_log n
            [[("action", "added"), ("timestamp", env.ts), ("file_path", path)]] := by
      simp only [DocumentRepositoryManager.add, effName, hn, Bool.false_eq_true, if_false,
        if_true, clientUpload, hfile, hup, DocumentRepositoryManager._save_version_log]
    rw [hred, lookupLog_setKey_self]

/-- Witness for the amended C1 at concrete inputs: removing "a" appends
after the old history, while adding under "a" leaves only the new entry. -/
theorem mutation_log_shapes_witness :
    lookupLog (DocumentRepositoryManager.remove envOk wFail "a").world.version_log "a"
      = some ([[("action", "added"), ("timestamp", "T0"), ("file_path", "a.txt")],
               [("action", "removed"), ("timestamp", "T1")]])
  ∧ lookupLog
      (DocumentRepositoryManager.add envOk wFail "b.txt" (some "a") none).world.version_log "a"
      = some [[("action", "added"), ("timestamp", "T1"), ("file_path", "b.txt")]] := by
  have h := mutation_log_shapes envOk wFail "a" "b.txt" none none
    [[("action", "added"), ("timestamp", "T0"), ("file_path", "a.txt")]] rfl
  exact ⟨h.1 docA rfl rfl, h.2.2 rfl rfl rfl⟩

/-! ### add on a missing local file -/

/-- Counterexample for C7: `add` performs no local existence check before
calling the backend — on a world with no local files, the trace of `add`
already contains the upload backend call (so a backend call IS attempted),
and the missing-file error surfaces from inside that call. -/
theorem add_no_precheck_counterexample :
    wEmpty.localFiles = []
  ∧ (DocumentRepositoryManager.add envOk wEmpty "missing.txt" none none).trace
      = [Call.upload "missing.txt"]
  ∧ (DocumentRepositoryManager.add envOk wEmpty "missing.txt" none none).trace ≠ []
  ∧ (DocumentRepositoryManager.add envOk wEmpty "missing.txt" none none).result
      = Except.error "FileNotFoundError: missing.txt" := by
  have hv : (DocumentRepositoryManager.add envOk wEmpty "missing.txt" none none).trace
      = [Call.upload "missing.txt"] := rfl
  refine ⟨rfl, hv, ?_, rfl⟩
  rw [hv]
  simp

/-- Claim C7, amended: when the local file does not exist, `add` attempts the
upload call itself (no prior local check), the file-not-found error raised
inside that call propagates to the caller, and the manager state — in
particular the Version Log in memory and on disk — is unchanged. -/
theorem add_missing_file_amended (env : Env) (w : World) (path : String)
    (display_name : Option String) (metadata : Option (List MetaEntry))
    (h : w.localFiles.contains path = false) :
    DocumentRepositoryManager.add env w path display_name metadata
      = ⟨w, [Call.upload path], Except.error ("FileNotFoundError: " ++ path)⟩ := by
  simp only [DocumentRepositoryManager.add, clientUpload, h, Bool.false_eq_true, if_false]

/-- Witness for the amended C7 at a concrete missing file. -/
theorem add_missing_file_amended_witness :
    DocumentRepositoryManager.add envOk wEmpty "missing.txt" none none
      = ⟨wEmpty, [Call.upload "missing.txt"],
         Except.error "FileNotFoundError: missing.txt"⟩ :=
  add_missing_file_amended envOk wEmpty "missing.txt" none none rfl
